import Mathlib

/-!
Verification of the algebra repository core: the tower-recursive parity
(sign) function over finite-field elements, and the evaluation-form
univariate polynomial arithmetic engine
(poly/src/evaluations/univariate/mod.rs).
-/

set_option maxRecDepth 4000

/-! ## Part 1: the Parity Oracle

Modelled from the spec: the function `parity` of
ec/src/hashing/curve_maps is not under src/ (only its tests,
ec/src/hashing/tests.rs, are).  The data model follows spec section 3: a
field tower terminates in a base prime field, whose elements have a unique
canonical least non-negative integer representative (here `ZMod p` with its
`val`); a composite element is an ordered sequence of coefficients over the
immediate sub-field, lowest index first.
-/

/-- An element of a field tower over the prime field with `p` elements:
either a base prime-field element, or a composite (extension) element given
by its ordered coefficient sequence over the immediate sub-field. -/
inductive FEl (p : Nat) where
  | prime (v : ZMod p)
  | ext (coeffs : List (FEl p))

mutual

/-- Whether a tower element is the additive identity of its field: a base
element is zero iff its value is zero, and a composite element is zero iff
every coefficient is zero. -/
def isZeroEl {p : Nat} : FEl p → Bool
  | .prime v => decide (v = 0)
  | .ext cs => isZeroList cs

/-- All elements of a coefficient list are the additive identity. -/
def isZeroList {p : Nat} : List (FEl p) → Bool
  | [] => true
  | c :: cs => isZeroEl c && isZeroList cs

end

mutual

/-- Modelled from the spec: the recursive parity contract of spec
section 4.1.  Base case: parity of a prime-field element is the oddness of
its canonical least non-negative integer representative.  Composite case:
scan coefficients from lowest to highest index; the parity of the element
is the parity of the first coefficient that is not the sub-field additive
identity, and false when every coefficient is the additive identity. -/
def parity {p : Nat} : FEl p → Bool
  | .prime v => decide (v.val % 2 = 1)
  | .ext cs => parityList cs

/-- Scan of the coefficient list, lowest index first. -/
def parityList {p : Nat} : List (FEl p) → Bool
  | [] => false
  | c :: cs => if isZeroEl c then parityList cs else parity c

end

theorem isZeroEl_ext {p : Nat} (cs : List (FEl p)) :
    isZeroEl (FEl.ext cs) = cs.all isZeroEl := by
  induction cs with
  | nil => rfl
  | cons c cs ih => simp only [isZeroEl, isZeroList, List.all_cons] at ih ⊢; rw [ih]

/-- C1: for every composite element, parity is the (recursively computed)
parity of the first coefficient, scanning from lowest to highest index,
that is not the sub-field additive identity; it is false when every
coefficient is the additive identity.  This holds at every tower depth
since coefficients may themselves be composite. -/
theorem parity_ext_first_nonzero (p : Nat) (cs : List (FEl p)) :
    parity (FEl.ext cs) =
      ((cs.find? fun c => !(isZeroEl c)).map parity).getD false := by
  induction cs with
  | nil => rfl
  | cons c cs ih =>
      by_cases h : isZeroEl c
      · simpa [parity, parityList, List.find?, h] using ih
      · simp [parity, parityList, List.find?, h]

/-- C2: for every prime-field element, parity is true exactly when the
canonical least non-negative integer representative is odd; in particular
the parity of the additive identity is false.  (The model is a total Lean
function over a borrowed value, so purity, totality and absence of
mutation are immediate.) -/
theorem parity_prime_odd (p : Nat) (hp : Fact p.Prime) (v : ZMod p) :
    (parity (FEl.prime v) = true ↔ Odd v.val) ∧
      parity (FEl.prime (0 : ZMod p)) = false := by
  constructor
  · simp [parity, Nat.odd_iff]
  · have : ((0 : ZMod p).val : Nat) = 0 := ZMod.val_zero
    simp [parity, this]

instance fact_prime_five : Fact (Nat.Prime 5) := ⟨by norm_num⟩

theorem parity_prime_odd_witness :
    (parity (FEl.prime (3 : ZMod 5)) = true ↔ Odd (3 : ZMod 5).val) ∧
      parity (FEl.prime (0 : ZMod 5)) = false :=
  parity_prime_odd 5 fact_prime_five 3

/-- The parity model reproduces every assertion of the repository tests in
ec/src/hashing/tests.rs (quadratic and cubic extension cases, with the
concrete small coefficient values used there). -/
theorem parity_matches_hashing_tests :
    (parity (FEl.prime (0 : ZMod 11)) = false ∧
     parity (FEl.prime (1 : ZMod 11)) = true ∧
     parity (FEl.prime (10 : ZMod 11)) = false) ∧
    (parity (FEl.ext [FEl.prime (0 : ZMod 11), FEl.prime 1]) = true ∧
     parity (FEl.ext [FEl.prime (1 : ZMod 11), FEl.prime 0]) = true ∧
     parity (FEl.ext [FEl.prime (10 : ZMod 11), FEl.prime 5]) = false ∧
     parity (FEl.ext [FEl.prime (5 : ZMod 11), FEl.prime 10]) = true) ∧
    (parity (FEl.ext [FEl.ext [FEl.prime (0 : ZMod 11), FEl.prime 0],
        FEl.ext [FEl.prime 0, FEl.prime 1],
        FEl.ext [FEl.prime 1, FEl.prime 0]]) = true ∧
     parity (FEl.ext [FEl.ext [FEl.prime (0 : ZMod 11), FEl.prime 1],
        FEl.ext [FEl.prime 1, FEl.prime 0],
        FEl.ext [FEl.prime 1, FEl.prime 1]]) = true ∧
     parity (FEl.ext [FEl.ext [FEl.prime (1 : ZMod 11), FEl.prime 0],
        FEl.ext [FEl.prime 1, FEl.prime 1],
        FEl.ext [FEl.prime 0, FEl.prime 0]]) = true ∧
     parity (FEl.ext [FEl.ext [FEl.prime (1 : ZMod 11), FEl.prime 1],
        FEl.ext [FEl.prime 0, FEl.prime 0],
        FEl.ext [FEl.prime 0, FEl.prime 1]]) = true ∧
     parity (FEl.ext [FEl.ext [FEl.prime (0 : ZMod 11), FEl.prime 0],
        FEl.ext [FEl.prime 0, FEl.prime 2],
        FEl.ext [FEl.prime 0, FEl.prime 1]]) = false) := by
  decide

/-! ## Part 2: the Evaluation-Form Polynomial

Shallow embedding of poly/src/evaluations/univariate/mod.rs.  The field
`F` and the domain type `D` are generic, as in the source.  The external
evaluation-domain collaborator is a dictionary of its two obligations
(`size` and the inverse transform in its borrowing and in-place calling
conventions); the external batch-inversion collaborator and the produced
coefficient-form polynomial are modelled from the spec below.  A Rust
assertion failure (domain mismatch) is modelled by returning `none`; an
in-place update is modelled by returning the new value of the mutated
operand.
-/

/-- Modelled from the spec: the external evaluation-domain collaborator of
spec section 6, supplying the number of points and the inverse transform
converting a value sequence from evaluation form to coefficient form, as a
borrowing call (`ifft`) and an in-place call (`ifftInPlace`). -/
structure DomainOps (F D : Type) where
  size : D → Nat
  ifft : D → List F → List F
  ifftInPlace : D → List F → List F

/-- Modelled from the spec: the coefficient-form polynomial produced to
the caller; its own arithmetic and representation are out of scope, so it
is the bare coefficient sequence. -/
structure DensePolynomial (F : Type) where
  coeffs : List F
deriving DecidableEq

/-- Modelled from the spec: the constructor wrapping a coefficient
sequence as a polynomial, applied identically on both interpolation
paths. -/
def DensePolynomial.from_coefficients_vec {F : Type} (coeffs : List F) :
    DensePolynomial F :=
  ⟨coeffs⟩

/-- Modelled from the spec: the external batch-inversion collaborator,
which replaces each entry of a sequence with its multiplicative inverse
(the behaviour on a zero entry is delegated to it; the model uses the
field inverse, for which the inverse of zero is zero). -/
def batch_inversion {F : Type} [Field F] (xs : List F) : List F :=
  xs.map fun x => x⁻¹

/-- Stores a univariate polynomial in evaluation form: the evaluations of
the polynomial over the domain, and the domain. -/
structure Evaluations (F D : Type) where
  evals : List F
  domain : D
deriving DecidableEq

/-- The in-place entrywise combination of the Rust source: iterating
mutably over the first sequence zipped with the second mutates only the
first `min` length entries and leaves the remaining entries of the first
sequence unchanged. -/
def zipWithLeft {F : Type} (f : F → F → F) : List F → List F → List F
  | x :: xs, y :: ys => f x y :: zipWithLeft f xs ys
  | xs, _ => xs

/-- Evaluations of the zero polynomial over `domain`. -/
def Evaluations.zero {F D : Type} [Field F] (ops : DomainOps F D)
    (domain : D) : Evaluations F D :=
  ⟨List.replicate (ops.size domain) 0, domain⟩

/-- Construct `Evaluations` from evaluations and a domain (trusted, no
validation). -/
def Evaluations.from_vec_and_domain {F D : Type} (evals : List F)
    (domain : D) : Evaluations F D :=
  ⟨evals, domain⟩

/-- Interpolate a polynomial from a list of evaluations, borrowing the
receiver and using the borrowing inverse transform. -/
def Evaluations.interpolate_by_ref {F D : Type} (ops : DomainOps F D)
    (e : Evaluations F D) : DensePolynomial F :=
  DensePolynomial.from_coefficients_vec (ops.ifft e.domain e.evals)

/-- Interpolate a polynomial from a list of evaluations, consuming the
receiver: the owned value sequence is transformed by the in-place inverse
transform and repackaged as the coefficient sequence. -/
def Evaluations.interpolate {F D : Type} (ops : DomainOps F D)
    (e : Evaluations F D) : DensePolynomial F :=
  DensePolynomial.from_coefficients_vec (ops.ifftInPlace e.domain e.evals)

/-- Bounds-checked indexing into the value sequence; `none` models the
panic of an out-of-range vector access. -/
def Evaluations.index {F D : Type} (e : Evaluations F D) (i : Nat) :
    Option F :=
  e.evals[i]?

/-- In-place addition: asserts domain equality, then adds entrywise into
the receiver.  `none` models the assertion failure. -/
def Evaluations.add_assign {F D : Type} [Add F] [DecidableEq D]
    (a b : Evaluations F D) : Option (Evaluations F D) :=
  if a.domain = b.domain then
    some ⟨zipWithLeft (fun x y => x + y) a.evals b.evals, a.domain⟩
  else none

/-- Addition: clones the receiver and applies in-place addition. -/
def Evaluations.add {F D : Type} [Add F] [DecidableEq D]
    (a b : Evaluations F D) : Option (Evaluations F D) :=
  a.add_assign b

/-- In-place subtraction: asserts domain equality, then subtracts
entrywise into the receiver. -/
def Evaluations.sub_assign {F D : Type} [Sub F] [DecidableEq D]
    (a b : Evaluations F D) : Option (Evaluations F D) :=
  if a.domain = b.domain then
    some ⟨zipWithLeft (fun x y => x - y) a.evals b.evals, a.domain⟩
  else none

/-- Subtraction: clones the receiver and applies in-place subtraction. -/
def Evaluations.sub {F D : Type} [Sub F] [DecidableEq D]
    (a b : Evaluations F D) : Option (Evaluations F D) :=
  a.sub_assign b

/-- In-place multiplication: asserts domain equality, then multiplies
entrywise into the receiver. -/
def Evaluations.mul_assign {F D : Type} [Mul F] [DecidableEq D]
    (a b : Evaluations F D) : Option (Evaluations F D) :=
  if a.domain = b.domain then
    some ⟨zipWithLeft (fun x y => x * y) a.evals b.evals, a.domain⟩
  else none

/-- Multiplication: clones the receiver and applies in-place
multiplication. -/
def Evaluations.mul {F D : Type} [Mul F] [DecidableEq D]
    (a b : Evaluations F D) : Option (Evaluations F D) :=
  a.mul_assign b

/-- In-place division: asserts domain equality, clones the divisor,
batch-inverts the clone, and multiplies it entrywise into the receiver.
The result pairs the new value of the receiver with the final value of the
borrowed divisor, which the source never writes through (only its clone
`other_copy` is mutated). -/
def Evaluations.div_assign {F D : Type} [Field F] [DecidableEq D]
    (a b : Evaluations F D) :
    Option (Evaluations F D × Evaluations F D) :=
  if a.domain = b.domain then
    let other_copy : Evaluations F D := ⟨batch_inversion b.evals, b.domain⟩
    some (⟨zipWithLeft (fun x y => x * y) a.evals other_copy.evals,
           a.domain⟩, b)
  else none

/-- Division: clones the receiver and applies in-place division. -/
def Evaluations.div {F D : Type} [Field F] [DecidableEq D]
    (a b : Evaluations F D) : Option (Evaluations F D) :=
  (a.div_assign b).map Prod.fst

/-- The representation invariant of spec section 3: the value sequence has
exactly as many entries as the domain has points. -/
def Evaluations.invariant {F D : Type} (ops : DomainOps F D)
    (e : Evaluations F D) : Prop :=
  e.evals.length = ops.size e.domain

instance {F D : Type} (ops : DomainOps F D) (e : Evaluations F D) :
    Decidable (Evaluations.invariant ops e) :=
  inferInstanceAs (Decidable (e.evals.length = ops.size e.domain))

theorem zipWithLeft_length {F : Type} (f : F → F → F) (xs ys : List F) :
    (zipWithLeft f xs ys).length = xs.length := by
  induction xs generalizing ys with
  | nil => cases ys <;> simp [zipWithLeft]
  | cons x xs ih => cases ys <;> simp [zipWithLeft, ih]

theorem zipWithLeft_eq_zipWith {F : Type} (f : F → F → F) (xs ys : List F)
    (h : xs.length ≤ ys.length) :
    zipWithLeft f xs ys = List.zipWith f xs ys := by
  induction xs generalizing ys with
  | nil => cases ys <;> simp [zipWithLeft]
  | cons x xs ih =>
      cases ys with
      | nil => simp at h
      | cons y ys =>
          simp only [zipWithLeft, List.zipWith_cons_cons]
          rw [ih ys (by simpa using h)]

/-- A concrete domain dictionary for ground checks: the domain descriptor
is its size, and the inverse transform is the identity in both calling
conventions. -/
def testOps : DomainOps (ZMod 5) Nat :=
  ⟨fun d => d, fun _ xs => xs, fun _ xs => xs⟩

/-- A concrete domain dictionary whose descriptors carry a size and an
extra tag, so that two distinct domain instances can have equal size. -/
def testOpsTagged : DomainOps (ZMod 5) (Nat × Nat) :=
  ⟨fun d => d.1, fun _ xs => xs, fun _ xs => xs⟩

/-- C3 counterexample: the trusted constructor accepts a value sequence of
length 1 over a domain of size 2 without failing, producing an
`Evaluations` value whose value-sequence length differs from its domain
size — so the length invariant does not hold for every `Evaluations`
value, and a wrong-length construction does not fail. -/
theorem from_vec_and_domain_skips_validation :
    ¬ Evaluations.invariant testOps
        (Evaluations.from_vec_and_domain [(1 : ZMod 5)] 2) := by
  decide

/-- C3 (amended): zero-construction establishes the length invariant, and
every ring operation preserves it for a receiver that already satisfies
it; but the trusted constructor performs no validation, so the caller is
responsible for the invariant at construction. -/
theorem invariant_zero_and_preserved {F D : Type} [Field F] [DecidableEq D]
    (ops : DomainOps F D) (a b : Evaluations F D)
    (ha : Evaluations.invariant ops a) :
    (∀ d : D, Evaluations.invariant ops (Evaluations.zero ops d)) ∧
    (∀ c, a.add_assign b = some c → Evaluations.invariant ops c) ∧
    (∀ c, a.sub_assign b = some c → Evaluations.invariant ops c) ∧
    (∀ c, a.mul_assign b = some c → Evaluations.invariant ops c) ∧
    (∀ c, a.div b = some c → Evaluations.invariant ops c) := by
  refine ⟨fun d => ?_, fun c hc => ?_, fun c hc => ?_, fun c hc => ?_,
    fun c hc => ?_⟩
  · simp [Evaluations.invariant, Evaluations.zero]
  · rw [Evaluations.add_assign] at hc
    split at hc
    · cases hc
      simpa [Evaluations.invariant, zipWithLeft_length] using ha
    · cases hc
  · rw [Evaluations.sub_assign] at hc
    split at hc
    · cases hc
      simpa [Evaluations.invariant, zipWithLeft_length] using ha
    · cases hc
  · rw [Evaluations.mul_assign] at hc
    split at hc
    · cases hc
      simpa [Evaluations.invariant, zipWithLeft_length] using ha
    · cases hc
  · rw [Evaluations.div, Evaluations.div_assign] at hc
    split at hc
    · simp only [Option.map_some] at hc
      cases hc
      simpa [Evaluations.invariant, zipWithLeft_length] using ha
    · cases hc

theorem invariant_zero_and_preserved_witness :
    Evaluations.invariant testOps
      (⟨[1, 2], 2⟩ : Evaluations (ZMod 5) Nat) ∧
    ((∀ d : Nat, Evaluations.invariant testOps (Evaluations.zero testOps d)) ∧
     (∀ c, Evaluations.add_assign ⟨[1, 2], 2⟩ ⟨[3, 4], 2⟩ = some c →
        Evaluations.invariant testOps c) ∧
     (∀ c, Evaluations.sub_assign ⟨[1, 2], 2⟩ ⟨[3, 4], 2⟩ = some c →
        Evaluations.invariant testOps c) ∧
     (∀ c, Evaluations.mul_assign ⟨[1, 2], 2⟩ ⟨[3, 4], 2⟩ = some c →
        Evaluations.invariant testOps c) ∧
     (∀ c, Evaluations.div ⟨[1, 2], 2⟩ ⟨[3, 4], 2⟩ = some c →
        Evaluations.invariant testOps c)) :=
  ⟨by decide, invariant_zero_and_preserved testOps ⟨[1, 2], 2⟩ ⟨[3, 4], 2⟩
    (by decide)⟩

/-- C4: combining two Evaluations whose domains are distinct (as domain
values, even when their sizes coincide) through any of the four binary
operations or their in-place variants fails fast and returns no result. -/
theorem domain_mismatch_fails_fast {F D : Type} [Field F] [DecidableEq D]
    (a b : Evaluations F D) (h : a.domain ≠ b.domain) :
    a.add b = none ∧ a.sub b = none ∧ a.mul b = none ∧ a.div b = none ∧
    a.add_assign b = none ∧ a.sub_assign b = none ∧
    a.mul_assign b = none ∧ a.div_assign b = none := by
  simp [Evaluations.add, Evaluations.sub, Evaluations.mul, Evaluations.div,
    Evaluations.add_assign, Evaluations.sub_assign, Evaluations.mul_assign,
    Evaluations.div_assign, h]

theorem domain_mismatch_fails_fast_witness :
    testOpsTagged.size (2, 0) = testOpsTagged.size (2, 1) ∧
    ((2, 0) : Nat × Nat) ≠ (2, 1) ∧
    ((⟨[1, 2], (2, 0)⟩ : Evaluations (ZMod 5) (Nat × Nat)).add
        ⟨[3, 4], (2, 1)⟩ = none ∧
      (⟨[1, 2], (2, 0)⟩ : Evaluations (ZMod 5) (Nat × Nat)).sub
        ⟨[3, 4], (2, 1)⟩ = none ∧
      (⟨[1, 2], (2, 0)⟩ : Evaluations (ZMod 5) (Nat × Nat)).mul
        ⟨[3, 4], (2, 1)⟩ = none ∧
      (⟨[1, 2], (2, 0)⟩ : Evaluations (ZMod 5) (Nat × Nat)).div
        ⟨[3, 4], (2, 1)⟩ = none ∧
      (⟨[1, 2], (2, 0)⟩ : Evaluations (ZMod 5) (Nat × Nat)).add_assign
        ⟨[3, 4], (2, 1)⟩ = none ∧
      (⟨[1, 2], (2, 0)⟩ : Evaluations (ZMod 5) (Nat × Nat)).sub_assign
        ⟨[3, 4], (2, 1)⟩ = none ∧
      (⟨[1, 2], (2, 0)⟩ : Evaluations (ZMod 5) (Nat × Nat)).mul_assign
        ⟨[3, 4], (2, 1)⟩ = none ∧
      (⟨[1, 2], (2, 0)⟩ : Evaluations (ZMod 5) (Nat × Nat)).div_assign
        ⟨[3, 4], (2, 1)⟩ = none) :=
  ⟨rfl, by decide, domain_mismatch_fails_fast ⟨[1, 2], (2, 0)⟩
    ⟨[3, 4], (2, 1)⟩ (by decide)⟩

/-- C5: for two Evaluations sharing an identical domain (and satisfying
the length invariant of the data model), `+`, `-` and `*` return the
Evaluations whose value sequence is the entrywise field sum, difference
and product respectively, over the common domain, unchanged. -/
theorem pointwise_add_sub_mul {F D : Type} [Field F] [DecidableEq D]
    (ops : DomainOps F D) (a b : Evaluations F D)
    (hd : a.domain = b.domain)
    (ha : Evaluations.invariant ops a) (hb : Evaluations.invariant ops b) :
    a.add b = some ⟨List.zipWith (fun x y => x + y) a.evals b.evals,
        a.domain⟩ ∧
    a.sub b = some ⟨List.zipWith (fun x y => x - y) a.evals b.evals,
        a.domain⟩ ∧
    a.mul b = some ⟨List.zipWith (fun x y => x * y) a.evals b.evals,
        a.domain⟩ := by
  have hlen : a.evals.length ≤ b.evals.length := by
    rw [Evaluations.invariant] at ha hb
    rw [ha, hb, hd]
  refine ⟨?_, ?_, ?_⟩ <;>
    simp [Evaluations.add, Evaluations.sub, Evaluations.mul,
      Evaluations.add_assign, Evaluations.sub_assign,
      Evaluations.mul_assign, hd, zipWithLeft_eq_zipWith _ _ _ hlen]

theorem pointwise_add_sub_mul_witness :
    ((⟨[1, 2], 2⟩ : Evaluations (ZMod 5) Nat).domain =
      (⟨[3, 4], 2⟩ : Evaluations (ZMod 5) Nat).domain) ∧
    Evaluations.invariant testOps (⟨[1, 2], 2⟩ : Evaluations (ZMod 5) Nat) ∧
    Evaluations.invariant testOps (⟨[3, 4], 2⟩ : Evaluations (ZMod 5) Nat) ∧
    (Evaluations.add (⟨[1, 2], 2⟩ : Evaluations (ZMod 5) Nat) ⟨[3, 4], 2⟩ =
        some ⟨List.zipWith (fun x y => x + y) [1, 2] [3, 4], 2⟩ ∧
      Evaluations.sub (⟨[1, 2], 2⟩ : Evaluations (ZMod 5) Nat) ⟨[3, 4], 2⟩ =
        some ⟨List.zipWith (fun x y => x - y) [1, 2] [3, 4], 2⟩ ∧
      Evaluations.mul (⟨[1, 2], 2⟩ : Evaluations (ZMod 5) Nat) ⟨[3, 4], 2⟩ =
        some ⟨List.zipWith (fun x y => x * y) [1, 2] [3, 4], 2⟩) :=
  ⟨rfl, by decide, by decide, pointwise_add_sub_mul testOps ⟨[1, 2], 2⟩
    ⟨[3, 4], 2⟩ rfl (by decide) (by decide)⟩

theorem zipWith_assoc_of_assoc {F : Type} (f : F → F → F)
    (hf : ∀ x y z, f (f x y) z = f x (f y z)) (xs ys zs : List F) :
    List.zipWith f (List.zipWith f xs ys) zs =
      List.zipWith f xs (List.zipWith f ys zs) := by
  induction xs generalizing ys zs with
  | nil => simp
  | cons x xs ih => cases ys <;> cases zs <;> simp [hf, ih]

theorem add_of_eq_domain {F D : Type} [Field F] [DecidableEq D]
    (x y : Evaluations F D) (hxy : x.domain = y.domain)
    (hl : x.evals.length ≤ y.evals.length) :
    x.add y =
      some ⟨List.zipWith (fun s t => s + t) x.evals y.evals, x.domain⟩ := by
  rw [Evaluations.add, Evaluations.add_assign, if_pos hxy,
    zipWithLeft_eq_zipWith _ _ _ hl]

theorem mul_of_eq_domain {F D : Type} [Field F] [DecidableEq D]
    (x y : Evaluations F D) (hxy : x.domain = y.domain)
    (hl : x.evals.length ≤ y.evals.length) :
    x.mul y =
      some ⟨List.zipWith (fun s t => s * t) x.evals y.evals, x.domain⟩ := by
  rw [Evaluations.mul, Evaluations.mul_assign, if_pos hxy,
    zipWithLeft_eq_zipWith _ _ _ hl]

/-- C6: for Evaluations `A`, `B`, `C` sharing one domain (and satisfying
the length invariant), addition is associative and commutative, `A - A` is
the zero Evaluations constructed over that domain, and multiplication is
commutative entrywise. -/
theorem evaluations_ring_laws {F D : Type} [Field F] [DecidableEq D]
    (ops : DomainOps F D) (a b c : Evaluations F D)
    (hab : a.domain = b.domain) (hbc : b.domain = c.domain)
    (ha : Evaluations.invariant ops a) (hb : Evaluations.invariant ops b)
    (hc : Evaluations.invariant ops c) :
    ((a.add b).bind fun x => x.add c) = ((b.add c).bind fun y => a.add y) ∧
    a.add b = b.add a ∧
    a.sub a = some (Evaluations.zero ops a.domain) ∧
    a.mul b = b.mul a := by
  rw [Evaluations.invariant] at ha hb hc
  have hab' : a.evals.length = b.evals.length := by rw [ha, hb, hab]
  have hbc' : b.evals.length = c.evals.length := by rw [hb, hc, hbc]
  refine ⟨?_, ?_, ?_, ?_⟩
  · rw [add_of_eq_domain a b hab (le_of_eq hab'),
      add_of_eq_domain b c hbc (le_of_eq hbc')]
    simp only [Option.some_bind]
    rw [add_of_eq_domain ⟨List.zipWith (fun s t => s + t) a.evals b.evals,
        a.domain⟩ c (hab.trans hbc)
        (by simp [List.length_zipWith, hab', hbc']),
      add_of_eq_domain a ⟨List.zipWith (fun s t => s + t) b.evals c.evals,
        b.domain⟩ hab
        (by simp [List.length_zipWith, hab', hbc'])]
    exact congrArg some (congrArg (fun l => Evaluations.mk l a.domain)
      (zipWith_assoc_of_assoc _ (fun x y z => add_assoc x y z) _ _ _))
  · rw [add_of_eq_domain a b hab (le_of_eq hab'),
      add_of_eq_domain b a hab.symm (le_of_eq hab'.symm), hab,
      List.zipWith_comm_of_comm _ (fun x y => add_comm x y)]
  · rw [Evaluations.sub, Evaluations.sub_assign, if_pos rfl,
      zipWithLeft_eq_zipWith _ _ _ (le_refl _), Evaluations.zero]
    refine congrArg some (congrArg (fun l => Evaluations.mk l a.domain) ?_)
    rw [List.zipWith_same]
    simp only [sub_self]
    rw [List.map_const', ha]
  · rw [mul_of_eq_domain a b hab (le_of_eq hab'),
      mul_of_eq_domain b a hab.symm (le_of_eq hab'.symm), hab,
      List.zipWith_comm_of_comm _ (fun x y => mul_comm x y)]

theorem evaluations_ring_laws_witness :
    ((⟨[1, 2], 2⟩ : Evaluations (ZMod 5) Nat).domain =
      (⟨[3, 4], 2⟩ : Evaluations (ZMod 5) Nat).domain) ∧
    ((⟨[3, 4], 2⟩ : Evaluations (ZMod 5) Nat).domain =
      (⟨[2, 0], 2⟩ : Evaluations (ZMod 5) Nat).domain) ∧
    Evaluations.invariant testOps (⟨[1, 2], 2⟩ : Evaluations (ZMod 5) Nat) ∧
    Evaluations.invariant testOps (⟨[3, 4], 2⟩ : Evaluations (ZMod 5) Nat) ∧
    Evaluations.invariant testOps (⟨[2, 0], 2⟩ : Evaluations (ZMod 5) Nat) ∧
    (((Evaluations.add (⟨[1, 2], 2⟩ : Evaluations (ZMod 5) Nat)
          ⟨[3, 4], 2⟩).bind fun x => x.add ⟨[2, 0], 2⟩) =
        ((Evaluations.add (⟨[3, 4], 2⟩ : Evaluations (ZMod 5) Nat)
          ⟨[2, 0], 2⟩).bind fun y => Evaluations.add ⟨[1, 2], 2⟩ y) ∧
      Evaluations.add (⟨[1, 2], 2⟩ : Evaluations (ZMod 5) Nat) ⟨[3, 4], 2⟩ =
        Evaluations.add ⟨[3, 4], 2⟩ ⟨[1, 2], 2⟩ ∧
      Evaluations.sub (⟨[1, 2], 2⟩ : Evaluations (ZMod 5) Nat) ⟨[1, 2], 2⟩ =
        some (Evaluations.zero testOps 2) ∧
      Evaluations.mul (⟨[1, 2], 2⟩ : Evaluations (ZMod 5) Nat) ⟨[3, 4], 2⟩ =
        Evaluations.mul ⟨[3, 4], 2⟩ ⟨[1, 2], 2⟩) :=
  ⟨rfl, rfl, by decide, by decide, by decide,
    evaluations_ring_laws testOps ⟨[1, 2], 2⟩ ⟨[3, 4], 2⟩ ⟨[2, 0], 2⟩
      rfl rfl (by decide) (by decide) (by decide)⟩

theorem zipWith_mul_inv_mul_cancel {F : Type} [Field F] (as bs : List F)
    (h : as.length = bs.length) (hz : ∀ y ∈ bs, y ≠ 0) :
    List.zipWith (fun x y => x * y)
      (List.zipWith (fun x y => x * y) as (bs.map fun y => y⁻¹)) bs = as := by
  induction as generalizing bs with
  | nil => simp
  | cons a as ih =>
      cases bs with
      | nil => simp at h
      | cons b bs =>
          simp only [List.map_cons, List.zipWith_cons_cons]
          rw [ih bs (by simpa using h)
            (fun y hy => hz y (List.mem_cons_of_mem _ hy))]
          rw [mul_assoc, inv_mul_cancel₀ (hz b (List.mem_cons_self _ _)),
            mul_one]

/-- C7: for Evaluations `A`, `B` sharing a domain (and satisfying the
length invariant), with no zero entry in the divisor value sequence,
`(A / B) * B = A` entrywise with exact field equality; division multiplies
the dividend entrywise by the batch inversion of the divisor sequence. -/
theorem div_mul_cancel_entrywise {F D : Type} [Field F] [DecidableEq D]
    (ops : DomainOps F D) (a b : Evaluations F D)
    (hd : a.domain = b.domain)
    (ha : Evaluations.invariant ops a) (hb : Evaluations.invariant ops b)
    (hz : ∀ y ∈ b.evals, y ≠ 0) :
    ((a.div b).bind fun q => q.mul b) = some a := by
  rw [Evaluations.invariant] at ha hb
  have hlen : a.evals.length = b.evals.length := by rw [ha, hb, hd]
  have hdiv : a.div b = some ⟨List.zipWith (fun x y => x * y) a.evals
      (b.evals.map fun y => y⁻¹), a.domain⟩ := by
    rw [Evaluations.div, Evaluations.div_assign, if_pos hd]
    show some (⟨zipWithLeft (fun x y => x * y) a.evals
        (batch_inversion b.evals), a.domain⟩ : Evaluations F D) =
      some ⟨List.zipWith (fun x y => x * y) a.evals
        (b.evals.map fun y => y⁻¹), a.domain⟩
    rw [batch_inversion, zipWithLeft_eq_zipWith _ _ _
      (by rw [List.length_map]; exact le_of_eq hlen)]
  rw [hdiv, Option.some_bind,
    mul_of_eq_domain ⟨List.zipWith (fun x y => x * y) a.evals
        (b.evals.map fun y => y⁻¹), a.domain⟩ b hd
      (by simp only [List.length_zipWith, List.length_map, hlen,
        min_self]; exact le_refl _)]
  exact congrArg some (congrArg (fun l => Evaluations.mk l a.domain)
    (zipWith_mul_inv_mul_cancel a.evals b.evals hlen hz))

theorem div_mul_cancel_entrywise_witness :
    ((⟨[1, 2], 2⟩ : Evaluations (ZMod 5) Nat).domain =
      (⟨[3, 4], 2⟩ : Evaluations (ZMod 5) Nat).domain) ∧
    Evaluations.invariant testOps (⟨[1, 2], 2⟩ : Evaluations (ZMod 5) Nat) ∧
    Evaluations.invariant testOps (⟨[3, 4], 2⟩ : Evaluations (ZMod 5) Nat) ∧
    (∀ y ∈ (⟨[3, 4], 2⟩ : Evaluations (ZMod 5) Nat).evals, y ≠ 0) ∧
    ((Evaluations.div (⟨[1, 2], 2⟩ : Evaluations (ZMod 5) Nat)
        ⟨[3, 4], 2⟩).bind fun q => q.mul ⟨[3, 4], 2⟩) =
      some ⟨[1, 2], 2⟩ :=
  ⟨rfl, by decide, by decide, by decide,
    div_mul_cancel_entrywise testOps ⟨[1, 2], 2⟩ ⟨[3, 4], 2⟩ rfl
      (by decide) (by decide) (by decide)⟩

/-- C8: interpolation by value (in-place inverse transform on the owned
value sequence) produces exactly the same coefficient-form polynomial as
interpolation by reference (borrowing inverse transform), given the
collaborator contract of spec section 6 that the two calling conventions
compute the same inverse transform. -/
theorem interpolate_eq_interpolate_by_ref {F D : Type}
    (ops : DomainOps F D) (e : Evaluations F D)
    (h : ∀ xs, ops.ifft e.domain xs = ops.ifftInPlace e.domain xs) :
    Evaluations.interpolate ops e = Evaluations.interpolate_by_ref ops e := by
  rw [Evaluations.interpolate, Evaluations.interpolate_by_ref, h]

theorem interpolate_eq_interpolate_by_ref_witness :
    (∀ xs, testOps.ifft (⟨[1, 2], 2⟩ : Evaluations (ZMod 5) Nat).domain xs =
      testOps.ifftInPlace (⟨[1, 2], 2⟩ : Evaluations (ZMod 5) Nat).domain
        xs) ∧
    Evaluations.interpolate testOps
        (⟨[1, 2], 2⟩ : Evaluations (ZMod 5) Nat) =
      Evaluations.interpolate_by_ref testOps ⟨[1, 2], 2⟩ :=
  ⟨fun xs => rfl,
    interpolate_eq_interpolate_by_ref testOps ⟨[1, 2], 2⟩ fun xs => rfl⟩

/-- C9: for an Evaluations satisfying the length invariant, indexing at a
position at or beyond the domain size fails (bounds-checked, no default or
wrapped value), and indexing inside the range returns the value at that
position of the value sequence. -/
theorem index_bounds_checked {F D : Type} (ops : DomainOps F D)
    (e : Evaluations F D) (he : Evaluations.invariant ops e) :
    (∀ i, ops.size e.domain ≤ i → e.index i = none) ∧
    (∀ i, i < ops.size e.domain →
      ∃ h : i < e.evals.length, e.index i = some (e.evals.get ⟨i, h⟩)) := by
  rw [Evaluations.invariant] at he
  constructor
  · intro i hi
    rw [Evaluations.index]
    exact List.getElem?_eq_none (by rw [he]; exact hi)
  · intro i hi
    have h : i < e.evals.length := by rw [he]; exact hi
    exact ⟨h, by rw [Evaluations.index, List.getElem?_eq_getElem h,
      List.get_eq_getElem]⟩

theorem index_bounds_checked_witness :
    Evaluations.invariant testOps (⟨[3, 4], 2⟩ : Evaluations (ZMod 5) Nat) ∧
    ((∀ i, testOps.size (⟨[3, 4], 2⟩ : Evaluations (ZMod 5) Nat).domain ≤ i →
        Evaluations.index (⟨[3, 4], 2⟩ : Evaluations (ZMod 5) Nat) i =
          none) ∧
      (∀ i, i < testOps.size
          (⟨[3, 4], 2⟩ : Evaluations (ZMod 5) Nat).domain →
        ∃ h : i < (⟨[3, 4], 2⟩ : Evaluations (ZMod 5) Nat).evals.length,
          Evaluations.index (⟨[3, 4], 2⟩ : Evaluations (ZMod 5) Nat) i =
            some ((⟨[3, 4], 2⟩ : Evaluations (ZMod 5) Nat).evals.get
              ⟨i, h⟩))) :=
  ⟨by decide, index_bounds_checked testOps ⟨[3, 4], 2⟩ (by decide)⟩

/-- C10: in-place division leaves the borrowed divisor operand entirely
unchanged — the batch inversion runs on a private clone of the divisor
value sequence — and the by-value division result is exactly the new value
of the receiver. -/
theorem div_leaves_divisor_unchanged {F D : Type} [Field F] [DecidableEq D]
    (a b : Evaluations F D) (r : Evaluations F D × Evaluations F D)
    (h : a.div_assign b = some r) :
    r.2 = b ∧ a.div b = some r.1 := by
  constructor
  · rw [Evaluations.div_assign] at h
    split at h
    · cases h; rfl
    · cases h
  · rw [Evaluations.div, h]; rfl

theorem div_leaves_divisor_unchanged_witness :
    Evaluations.div_assign (⟨[1], 1⟩ : Evaluations (ZMod 5) Nat) ⟨[2], 1⟩ =
      some (⟨[1 * (2 : ZMod 5)⁻¹], 1⟩, ⟨[2], 1⟩) ∧
    (((⟨[1 * (2 : ZMod 5)⁻¹], 1⟩, ⟨[2], 1⟩) :
        Evaluations (ZMod 5) Nat × Evaluations (ZMod 5) Nat).2 =
      ⟨[2], 1⟩ ∧
    Evaluations.div (⟨[1], 1⟩ : Evaluations (ZMod 5) Nat) ⟨[2], 1⟩ =
      some ((⟨[1 * (2 : ZMod 5)⁻¹], 1⟩, ⟨[2], 1⟩) :
        Evaluations (ZMod 5) Nat × Evaluations (ZMod 5) Nat).1) :=
  ⟨rfl, div_leaves_divisor_unchanged ⟨[1], 1⟩ ⟨[2], 1⟩
    (⟨[1 * (2 : ZMod 5)⁻¹], 1⟩, ⟨[2], 1⟩) rfl⟩
